import Mathlib

/-!
Shallow embedding of `src/transaction.ts` (Conveyant/promise-transactions),
the compensating-transaction ("saga") engine.

Modelling decisions, all taken from the source:

* A JS `TransactionResults` object is an insertion-ordered string-keyed map.
  `results[stage] = v` uses the decimal string of the number as key (JS
  object-key coercion), so `results[1]` and `results["1"]` are the same key.
  We model it as a `List (String × Value)` where assignment updates an
  existing key in place and otherwise appends, and lookup takes the unique
  entry for the key.
* Task results are arbitrary JS values; we model them with a small closed
  `Value` type that can also hold a whole result context (`vctx`), which is
  what a nested transaction returns.
* A thrown JS value is modelled by `Err`: an arbitrary task-thrown value
  (`raw`), an `InvalidOperationError` carrying its message (`invalidOp`),
  a `TransactionError` (`txError cause rollbackErrors`), and a bare thrown
  array of rollback errors (`errList`), which is what `internalRollback`
  throws.
* A `Task` is the external contract: a name plus pure `execute`/`rollback`
  functions of the context (`await` just sequences, so the asynchronous
  calls collapse to function application).  The engine is instrumented with
  a trace of the invocations it performs (`Event`), recording the index,
  the name, and the exact context object passed.
* `Transaction` mirrors the class fields: `name`, `tasks`, `state` — the
  class retains nothing else between calls.  Methods are functions from the
  instance to a `RunResult`, which packages the returned-or-thrown value,
  the instrumentation trace, and the updated instance.
-/

namespace Ptx

/-- A JS value, as far as the engine can observe it. -/
inductive Value where
  | vnull
  | vundef
  | vnat (n : Nat)
  | vstr (s : String)
  | vctx (entries : List (String × Value))

/-- A `TransactionResults` object: insertion-ordered string-keyed entries. -/
abbrev Ctx : Type := List (String × Value)

/-- JS property read: the entry for the key, if present. -/
def ctxGet (c : Ctx) (k : String) : Option Value :=
  match c with
  | [] => none
  | (k', v) :: rest => if k' = k then some v else ctxGet rest k

/-- JS property write: update the key in place if present, else append. -/
def ctxSet (c : Ctx) (k : String) (v : Value) : Ctx :=
  match c with
  | [] => [(k, v)]
  | (k', v') :: rest =>
      if k' = k then (k', v) :: rest else (k', v') :: ctxSet rest k v

/-- The context `execute` starts from: `{ final: null }`. -/
def initCtx : Ctx := [("final", Value.vnull)]

/-- The object key a numeric index writes to (`results[stage]`): the decimal
string of the number, per JS key coercion. -/
def idxKey (n : Nat) : String := Nat.repr n

/-- A thrown JS value. -/
inductive Err where
  | raw (v : Value)
  | invalidOp (msg : String)
  | txError (cause : Err) (rollbackErrors : List Err)
  | errList (errs : List Err)

/-- Instrumentation: one entry per task invocation the engine performs,
recording the task's index in the owning list, its name, and the exact
context object passed to it. -/
inductive Event where
  | execCall (i : Nat) (name : String) (ctx : Ctx)
  | rbCall (i : Nat) (name : String) (ctx : Ctx)

/-- The `Task` contract: a name, `execute(context)` and `rollback(context)`. -/
structure Task where
  name : String
  exec : Ctx → Except Err Value
  rb : Ctx → Except Err Unit

/-- `TransactionState` from the source. -/
inductive TransactionState where
  | NotStarted
  | Running
  | Finished
  deriving DecidableEq

/-- The `Transaction` class fields: `name`, `tasks`, `state`. -/
structure Transaction where
  name : String
  tasks : List Task
  state : TransactionState

/-- Outcome of a method call on a `Transaction`: the resolved value or the
thrown error, the invocation trace, and the instance as the call left it. -/
structure RunResult (α : Type) where
  val : Except Err α
  trace : List Event
  post : Transaction

/-- The message of the empty-task-list precondition error. -/
def emptyMsg : String := "A Transaction can only be executed with at least one Task."

/-- The message of the re-execution precondition error. -/
def onceMsg : String := "A Transaction can only be executed once."

/-- The message of the premature-rollback precondition error. -/
def rbMsg : String := "A Transaction cannot be rolled back until it has been executed fully."

/-- The name of the task at an index (`this.tasks[i].name`). -/
def nameAt (ts : List Task) (i : Nat) : String :=
  match ts[i]? with
  | some t => t.name
  | none => ""

/-- Invoking `this.tasks[i].rollback(c)`; all call sites stay in bounds. -/
def rbAt (ts : List Task) (i : Nat) (c : Ctx) : Except Err Unit :=
  match ts[i]? with
  | some t => t.rb c
  | none => Except.ok ()

/-- The two writes a successful stage performs:
`results[stage] = result; results[task.name] = result` (in that order). -/
def pushResult (c : Ctx) (i : Nat) (nm : String) (v : Value) : Ctx :=
  ctxSet (ctxSet c (idxKey i) v) nm v

/-- The forward loop of `execute`, starting at index `i` with the remaining
task list and the current context.  Returns the number of completed tasks
(the source's `stage + 1`), the context as it stands, the invocation trace,
and the triggering error if a task failed. -/
def fwdLoop (rem : List Task) (i : Nat) (c : Ctx) :
    Nat × Ctx × List Event × Option Err :=
  match rem with
  | [] => (i, c, [], none)
  | t :: rest =>
      match t.exec c with
      | Except.error e => (i, c, [Event.execCall i t.name c], some e)
      | Except.ok v =>
          let out := fwdLoop rest (i + 1) (pushResult c i t.name v)
          (out.1, out.2.1, Event.execCall i t.name c :: out.2.2.1, out.2.2.2)

/-- The body of `internalRollback`'s loop over `i = currentStage .. 0`,
given the descending index list.  Returns the collected rollback errors in
attempt order and the invocation trace. -/
def rbSweep (ts : List Task) (c : Ctx) : List Nat → List Err × List Event
  | [] => ([], [])
  | i :: rest =>
      let out := rbSweep ts c rest
      match rbAt ts i c with
      | Except.ok _ => (out.1, Event.rbCall i (nameAt ts i) c :: out.2)
      | Except.error e => (e :: out.1, Event.rbCall i (nameAt ts i) c :: out.2)

/-- The shared compensation sweep: roll back tasks `count - 1 .. 0` (the
source's `currentStage = count - 1`; `count = 0` models `stage = -1`),
then set the state to `NotStarted`.  Returns the collected errors, the
trace, and the updated instance; `internalRollback` throws the error list
exactly when it is nonempty. -/
def rbRun (τ : Transaction) (c : Ctx) (count : Nat) :
    List Err × List Event × Transaction :=
  let out := rbSweep τ.tasks c (List.range count).reverse
  (out.1, out.2, { τ with state := TransactionState.NotStarted })

/-- `internalRollback(context, currentStage)` with `count = currentStage + 1`:
runs the sweep and throws the collected error array if any rollback failed. -/
def internalRollback (τ : Transaction) (c : Ctx) (count : Nat) : RunResult Unit :=
  let out := rbRun τ c count
  { val := if out.1.isEmpty then Except.ok () else Except.error (Err.errList out.1),
    trace := out.2.1,
    post := out.2.2 }

/-- `Transaction.execute()`. -/
def Transaction.execute (τ : Transaction) : RunResult Ctx :=
  if τ.tasks.isEmpty then
    { val := Except.error (Err.invalidOp emptyMsg), trace := [], post := τ }
  else if τ.state ≠ TransactionState.NotStarted then
    { val := Except.error (Err.invalidOp onceMsg), trace := [], post := τ }
  else
    -- state := Running; results := { final: null }; stage := -1; loop.
    let out := fwdLoop τ.tasks 0 initCtx
    match out.2.2.2 with
    | none =>
        -- results.final = results[stage]; state := Finished; return results.
        let fin := (ctxGet out.2.1 (idxKey (out.1 - 1))).getD Value.vundef
        { val := Except.ok (ctxSet out.2.1 "final" fin),
          trace := out.2.2.1,
          post := { τ with state := TransactionState.Finished } }
    | some cause =>
        -- catch: internalRollback(results, stage); the caught value is the
        -- (nonempty) collected error array, [] if nothing was thrown; then
        -- throw TransactionError { cause, rollbackErrors }.
        let rb := rbRun { τ with state := TransactionState.Running } out.2.1 out.1
        { val := Except.error (Err.txError cause rb.1),
          trace := out.2.2.1 ++ rb.2.1,
          post := rb.2.2 }

/-- `Transaction.rollback(context)`: the public/manual entry point.  Requires
`Finished` and sweeps from `this.tasks.length - 1` (i.e. `count = length`). -/
def Transaction.rollback (τ : Transaction) (c : Ctx) : RunResult Unit :=
  if τ.state = TransactionState.Finished then
    internalRollback τ c τ.tasks.length
  else
    { val := Except.error (Err.invalidOp rbMsg), trace := [], post := τ }

/-- A `Transaction` used as a `Task` of an outer transaction
(`class Transaction implements Task`): its `execute` ignores the supplied
context (the method declares no parameter) and resolves to the whole inner
`TransactionResults` object; its `rollback` is the public rollback of the
instance as the forward run left it (in JS the mutation of `this.state` is
shared between the two method references). -/
def asTask (τ : Transaction) : Task :=
  { name := τ.name,
    exec := fun _ => (Transaction.execute τ).val.map Value.vctx,
    rb := fun c => (Transaction.rollback (Transaction.execute τ).post c).val }

/-- Construct a fresh transaction (the constructor plus `add` calls) and
`execute` it. -/
def execNS (nm : String) (ts : List Task) : RunResult Ctx :=
  Transaction.execute { name := nm, tasks := ts, state := TransactionState.NotStarted }

/-- The context a task at index `i` is invoked with during the forward pass,
assuming tasks `0 .. i-1` succeeded (junk in branches the theorems' hypotheses
exclude). -/
def fwdCtx (ts : List Task) : Nat → Ctx
  | 0 => initCtx
  | i + 1 =>
      let c := fwdCtx ts i
      match ts[i]? with
      | none => c
      | some t =>
          match t.exec c with
          | Except.ok v => pushResult c i t.name v
          | Except.error _ => c

/-- The outcome of invoking task `i`'s `execute` on the forward-pass context. -/
def execAt (ts : List Task) (i : Nat) : Except Err Value :=
  match ts[i]? with
  | some t => t.exec (fwdCtx ts i)
  | none => Except.error (Err.raw Value.vundef)

/-- Whether an `execute` outcome is a success. -/
def isOk (x : Except Err Value) : Bool :=
  match x with
  | Except.ok _ => true
  | Except.error _ => false

/-- The value task `i` produced on the forward pass (junk if it failed). -/
def fwdVal (ts : List Task) (i : Nat) : Value :=
  match execAt ts i with
  | Except.ok v => v
  | Except.error _ => Value.vundef

/-- The rollback error task `i` contributes, if its `rollback` fails. -/
def errPart (x : Except Err Unit) : Option Err :=
  match x with
  | Except.ok _ => none
  | Except.error e => some e

/-- Indices of the rollback invocations in a trace, in order. -/
def rbIndices (tr : List Event) : List Nat :=
  tr.filterMap fun ev =>
    match ev with
    | Event.rbCall i _ _ => some i
    | Event.execCall _ _ _ => none

/-- Indices of the forward invocations in a trace, in order. -/
def execIndices (tr : List Event) : List Nat :=
  tr.filterMap fun ev =>
    match ev with
    | Event.execCall i _ _ => some i
    | Event.rbCall _ _ _ => none

/-! ### Context lemmas -/

theorem ctxGet_ctxSet_self (c : Ctx) (k : String) (v : Value) :
    ctxGet (ctxSet c k v) k = some v := by
  induction c with
  | nil => simp [ctxSet, ctxGet]
  | cons p rest ih =>
      by_cases h : p.1 = k
      · simp [ctxSet, ctxGet, h]
      · simpa [ctxSet, ctxGet, h] using ih

theorem ctxGet_ctxSet_ne (c : Ctx) (k k' : String) (v : Value) (h : k' ≠ k) :
    ctxGet (ctxSet c k v) k' = ctxGet c k' := by
  induction c with
  | nil => simp [ctxSet, ctxGet, Ne.symm h]
  | cons p rest ih =>
      obtain ⟨k₀, v₀⟩ := p
      by_cases hp : k₀ = k
      · subst hp
        simp [ctxSet, ctxGet, Ne.symm h]
      · simp only [ctxSet, hp, if_false, ctxGet]
        by_cases hp' : k₀ = k'
        · simp [hp']
        · simpa [hp'] using ih

theorem ctxGet_pushResult_name (c : Ctx) (i : Nat) (nm : String) (v : Value) :
    ctxGet (pushResult c i nm v) nm = some v :=
  ctxGet_ctxSet_self _ _ _

theorem ctxGet_pushResult_idx (c : Ctx) (i : Nat) (nm : String) (v : Value) :
    ctxGet (pushResult c i nm v) (idxKey i) = some v := by
  by_cases h : idxKey i = nm
  · rw [pushResult, h]
    exact ctxGet_ctxSet_self _ _ _
  · rw [pushResult, ctxGet_ctxSet_ne _ _ _ _ h]
    exact ctxGet_ctxSet_self _ _ _

theorem ctxGet_pushResult_other (c : Ctx) (i : Nat) (nm : String) (v : Value)
    (k : String) (h1 : k ≠ idxKey i) (h2 : k ≠ nm) :
    ctxGet (pushResult c i nm v) k = ctxGet c k := by
  rw [pushResult, ctxGet_ctxSet_ne _ _ _ _ h2, ctxGet_ctxSet_ne _ _ _ _ h1]

/-! ### Decimal object keys

JS coerces a numeric index to its decimal string, so `results[i]` and a task
name equal to that string are the same property.  We prove the two facts the
key discipline rests on: decimal strings of distinct numbers differ, and no
decimal string is the reserved key `"final"`. -/

/-- The decimal digit list of a number, most significant first. -/
def decDigits (n : Nat) : List Char :=
  if h : n < 10 then [Nat.digitChar n]
  else
    have : n / 10 < n := Nat.div_lt_self (by omega) (by omega)
    decDigits (n / 10) ++ [Nat.digitChar (n % 10)]

theorem decDigits_lt (n : Nat) (h : n < 10) : decDigits n = [Nat.digitChar n] := by
  rw [decDigits, dif_pos h]

theorem decDigits_ge (n : Nat) (h : ¬ n < 10) :
    decDigits n = decDigits (n / 10) ++ [Nat.digitChar (n % 10)] := by
  rw [decDigits, dif_neg h]

theorem toDigitsCore_eq_decDigits (fuel n : Nat) (ds : List Char) (h : n < fuel) :
    Nat.toDigitsCore 10 fuel n ds = decDigits n ++ ds := by
  induction fuel generalizing n ds with
  | zero => omega
  | succ f ih =>
      rw [Nat.toDigitsCore]
      by_cases h0 : n / 10 = 0
      · have hn : n < 10 := by omega
        rw [if_pos h0, decDigits_lt n hn, Nat.mod_eq_of_lt hn]
        simp
      · have hn : ¬ n < 10 := by omega
        have hlt : n / 10 < f := by omega
        rw [if_neg h0, ih _ _ hlt, decDigits_ge n hn]
        simp

theorem repr_eq_decDigits (n : Nat) : Nat.repr n = (decDigits n).asString := by
  rw [Nat.repr, Nat.toDigits, toDigitsCore_eq_decDigits _ _ _ (Nat.lt_succ_self n)]
  simp

theorem digitChar_toNat (d : Nat) (h : d < 10) :
    (Nat.digitChar d).toNat = 48 + d := by
  interval_cases d <;> rfl

/-- Reading the digit list back: `decDigits` is value-faithful. -/
theorem parse_decDigits (n : Nat) :
    (decDigits n).foldl (fun a c => 10 * a + (c.toNat - 48)) 0 = n := by
  induction n using Nat.strong_induction_on with
  | _ n ih =>
      by_cases h : n < 10
      · rw [decDigits_lt n h]
        simp [digitChar_toNat n h]
      · have hdiv : n / 10 < n := by omega
        rw [decDigits_ge n h, List.foldl_append, ih _ hdiv]
        have hm : n % 10 < 10 := Nat.mod_lt _ (by omega)
        simp only [List.foldl_cons, List.foldl_nil, digitChar_toNat _ hm]
        omega

theorem decDigits_injective (m n : Nat) (h : decDigits m = decDigits n) : m = n := by
  have := parse_decDigits m
  rw [h, parse_decDigits n] at this
  omega

theorem idxKey_injective (m n : Nat) (h : idxKey m = idxKey n) : m = n := by
  rw [idxKey, idxKey, repr_eq_decDigits, repr_eq_decDigits] at h
  exact decDigits_injective m n (congrArg String.data h)

theorem decDigits_all_digits (n : Nat) (c : Char) (h : c ∈ decDigits n) :
    c.toNat < 58 := by
  induction n using Nat.strong_induction_on with
  | _ n ih =>
      by_cases hn : n < 10
      · rw [decDigits_lt n hn] at h
        simp only [List.mem_singleton] at h
        subst h
        rw [digitChar_toNat n hn]
        omega
      · have hdiv : n / 10 < n := by omega
        rw [decDigits_ge n hn, List.mem_append] at h
        rcases h with h | h
        · exact ih _ hdiv h
        · simp only [List.mem_singleton] at h
          subst h
          rw [digitChar_toNat _ (Nat.mod_lt _ (by omega))]
          omega

theorem idxKey_ne_final (n : Nat) : idxKey n ≠ "final" := by
  intro h
  rw [idxKey, repr_eq_decDigits] at h
  have hf : 'f' ∈ decDigits n := by
    have : (decDigits n).asString.data = "final".data := by rw [h]
    simp only [List.asString] at this
    rw [this]
    simp [String.data]
  have := decDigits_all_digits n 'f' hf
  exact absurd this (by decide)

/-! ### Forward-pass characterization -/

/-- The forward invocation the engine performs for task `j` (index, name and
the context it is handed), once tasks `0 .. j-1` have succeeded. -/
def eEv (ts : List Task) (j : Nat) : Event :=
  Event.execCall j (nameAt ts j) (fwdCtx ts j)

/-- The rollback invocation the engine performs for task `i` with context `c`. -/
def rEv (ts : List Task) (c : Ctx) (i : Nat) : Event :=
  Event.rbCall i (nameAt ts i) c

theorem execAt_some (ts : List Task) (i : Nat) (t : Task) (ht : ts[i]? = some t) :
    execAt ts i = t.exec (fwdCtx ts i) := by
  simp [execAt, ht]

theorem nameAt_some (ts : List Task) (i : Nat) (t : Task) (ht : ts[i]? = some t) :
    nameAt ts i = t.name := by
  simp [nameAt, ht]

theorem fwdCtx_succ_ok (ts : List Task) (i : Nat) (t : Task) (v : Value)
    (ht : ts[i]? = some t) (hv : t.exec (fwdCtx ts i) = Except.ok v) :
    fwdCtx ts (i + 1) = pushResult (fwdCtx ts i) i t.name v := by
  rw [fwdCtx]
  simp [ht, hv]

theorem isOk_iff (x : Except Err Value) : isOk x = true ↔ ∃ v, x = Except.ok v := by
  cases x <;> simp [isOk]

/-- Running the forward loop from index `m` is: execute tasks `m .. i-1`
(which succeed), then continue from index `i`. -/
theorem fwdLoop_cont (ts : List Task) (m i : Nat) (him : m ≤ i) (hin : i ≤ ts.length)
    (hs : ∀ j, m ≤ j → j < i → isOk (execAt ts j) = true) :
    fwdLoop (ts.drop m) m (fwdCtx ts m) =
      ((fwdLoop (ts.drop i) i (fwdCtx ts i)).1,
       (fwdLoop (ts.drop i) i (fwdCtx ts i)).2.1,
       (List.range' m (i - m)).map (eEv ts) ++ (fwdLoop (ts.drop i) i (fwdCtx ts i)).2.2.1,
       (fwdLoop (ts.drop i) i (fwdCtx ts i)).2.2.2) := by
  obtain ⟨d, hd⟩ : ∃ d, i - m = d := ⟨_, rfl⟩
  induction d generalizing m with
  | zero =>
      have hm : m = i := by omega
      subst hm
      simp [hd]
  | succ d ih =>
      have hmi : m < i := by omega
      have hml : m < ts.length := by omega
      have ht : ts[m]? = some ts[m] := List.getElem?_eq_getElem hml
      obtain ⟨v, hv⟩ := (isOk_iff _).1 (hs m le_rfl hmi)
      rw [execAt_some ts m _ ht] at hv
      rw [List.drop_eq_getElem_cons hml, fwdLoop, hv]
      dsimp only
      rw [← fwdCtx_succ_ok ts m _ v ht hv]
      rw [ih (m + 1) (by omega) (fun j h1 h2 => hs j (by omega) h2) (by omega)]
      have hd1 : i - (m + 1) = d := by omega
      have hr : List.range' m (i - m) = m :: List.range' (m + 1) (i - (m + 1)) := by
        rw [hd, hd1, List.range'_succ]
      rw [hr]
      simp [eEv, nameAt_some ts m _ ht]

/-- A fully successful forward pass. -/
theorem fwdLoop_all_ok (ts : List Task)
    (hall : ∀ j, j < ts.length → isOk (execAt ts j) = true) :
    fwdLoop ts 0 initCtx =
      (ts.length, fwdCtx ts ts.length, (List.range ts.length).map (eEv ts), none) := by
  have h0 : ts.drop 0 = ts := List.drop_zero ts
  have hn : ts.drop ts.length = [] := List.drop_length ts
  have := fwdLoop_cont ts 0 ts.length (Nat.zero_le _) le_rfl
    (fun j _ h2 => hall j h2)
  rw [h0, hn] at this
  rw [show fwdCtx ts 0 = initCtx from rfl] at this
  rw [this, fwdLoop]
  simp [List.range_eq_range']

/-- A forward pass failing at task `k` (tasks before it succeeded). -/
theorem fwdLoop_fail (ts : List Task) (k : Nat) (e : Err) (hk : k < ts.length)
    (hs : ∀ j, j < k → isOk (execAt ts j) = true)
    (hf : execAt ts k = Except.error e) :
    fwdLoop ts 0 initCtx =
      (k, fwdCtx ts k, (List.range (k + 1)).map (eEv ts), some e) := by
  have h0 : ts.drop 0 = ts := List.drop_zero ts
  have ht : ts[k]? = some ts[k] := List.getElem?_eq_getElem hk
  rw [execAt_some ts k _ ht] at hf
  have := fwdLoop_cont ts 0 k (Nat.zero_le _) (le_of_lt hk)
    (fun j _ h2 => hs j h2)
  rw [h0] at this
  rw [show fwdCtx ts 0 = initCtx from rfl] at this
  rw [this, List.drop_eq_getElem_cons hk, fwdLoop, hf]
  have hr : List.range (k + 1) = List.range' 0 k ++ [k] := by
    rw [List.range_eq_range', List.range'_1_concat]
    simp
  rw [hr]
  simp [eEv, nameAt_some ts k _ ht]

/-- Whatever happens from task `i` on, tasks `0 .. i` are invoked on their
forward-pass contexts first (given tasks before `i` succeeded). -/
theorem fwdLoop_prefix (ts : List Task) (i : Nat) (hi : i < ts.length)
    (hs : ∀ j, j < i → isOk (execAt ts j) = true) :
    ∃ tl, (fwdLoop ts 0 initCtx).2.2.1 = (List.range (i + 1)).map (eEv ts) ++ tl := by
  cases hx : execAt ts i with
  | error e =>
      refine ⟨[], ?_⟩
      rw [fwdLoop_fail ts i e hi hs hx]
      simp
  | ok v =>
      have := fwdLoop_cont ts 0 (i + 1) (Nat.zero_le _) (by omega)
        (fun j _ h2 => by
          rcases Nat.lt_or_ge j i with h | h
          · exact hs j h
          · have : j = i := by omega
            subst this
            rw [hx]
            rfl)
      rw [List.drop_zero, show fwdCtx ts 0 = initCtx from rfl] at this
      refine ⟨(fwdLoop (ts.drop (i + 1)) (i + 1) (fwdCtx ts (i + 1))).2.2.1, ?_⟩
      rw [this]
      simp [List.range_eq_range']

/-! ### Rollback-sweep characterization -/

theorem rbSweep_eq (ts : List Task) (c : Ctx) (l : List Nat) :
    rbSweep ts c l =
      (l.filterMap (fun i => errPart (rbAt ts i c)), l.map (rEv ts c)) := by
  induction l with
  | nil => rfl
  | cons i rest ih =>
      rw [rbSweep, ih]
      cases hx : rbAt ts i c with
      | ok u => simp [List.filterMap_cons, errPart, hx, rEv]
      | error e => simp [List.filterMap_cons, errPart, hx, rEv]

theorem rbIndices_append (a b : List Event) :
    rbIndices (a ++ b) = rbIndices a ++ rbIndices b :=
  List.filterMap_append a b _

theorem execIndices_append (a b : List Event) :
    execIndices (a ++ b) = execIndices a ++ execIndices b :=
  List.filterMap_append a b _

theorem rbIndices_execMap (ts : List Task) (l : List Nat) :
    rbIndices (l.map (eEv ts)) = [] := by
  induction l with
  | nil => rfl
  | cons i rest ih => simp [rbIndices, eEv, List.filterMap_cons, ih]

theorem rbIndices_rbMap (ts : List Task) (c : Ctx) (l : List Nat) :
    rbIndices (l.map (rEv ts c)) = l := by
  induction l with
  | nil => rfl
  | cons i rest ih =>
      rw [List.map_cons, rbIndices, List.filterMap_cons]
      rw [rbIndices] at ih
      simp only [rEv]
      rw [ih]

theorem execIndices_execMap (ts : List Task) (l : List Nat) :
    execIndices (l.map (eEv ts)) = l := by
  induction l with
  | nil => rfl
  | cons i rest ih =>
      rw [List.map_cons, execIndices, List.filterMap_cons]
      rw [execIndices] at ih
      simp only [eEv]
      rw [ih]

theorem execIndices_rbMap (ts : List Task) (c : Ctx) (l : List Nat) :
    execIndices (l.map (rEv ts c)) = [] := by
  induction l with
  | nil => rfl
  | cons i rest ih => simp [execIndices, rEv, List.filterMap_cons, ih]

/-! ### `execute` characterization -/

/-- The rollback errors a failure at task `k` collects: the failures of the
completed tasks' rollbacks, in attempt (descending-index) order. -/
def rbErrsOf (ts : List Task) (k : Nat) : List Err :=
  (List.range k).reverse.filterMap fun i => errPart (rbAt ts i (fwdCtx ts k))

theorem execute_emptyTasks (τ : Transaction) (h : τ.tasks = []) :
    Transaction.execute τ =
      { val := Except.error (Err.invalidOp emptyMsg), trace := [], post := τ } := by
  rw [Transaction.execute]
  simp [h]

theorem execute_notFresh (τ : Transaction) (h1 : τ.tasks ≠ [])
    (h2 : τ.state ≠ TransactionState.NotStarted) :
    Transaction.execute τ =
      { val := Except.error (Err.invalidOp onceMsg), trace := [], post := τ } := by
  rw [Transaction.execute]
  simp [h1, h2]

theorem execute_all_ok (τ : Transaction) (h1 : τ.tasks ≠ [])
    (h2 : τ.state = TransactionState.NotStarted)
    (hall : ∀ j, j < τ.tasks.length → isOk (execAt τ.tasks j) = true) :
    Transaction.execute τ =
      { val := Except.ok (ctxSet (fwdCtx τ.tasks τ.tasks.length) "final"
          ((ctxGet (fwdCtx τ.tasks τ.tasks.length) (idxKey (τ.tasks.length - 1))).getD
            Value.vundef)),
        trace := (List.range τ.tasks.length).map (eEv τ.tasks),
        post := { τ with state := TransactionState.Finished } } := by
  rw [Transaction.execute]
  simp only [h2, ne_eq, not_true_eq_false, if_false]
  rw [if_neg (by simp [h1])]
  rw [fwdLoop_all_ok τ.tasks hall]

theorem execute_fail (τ : Transaction) (k : Nat) (e : Err)
    (h2 : τ.state = TransactionState.NotStarted)
    (hk : k < τ.tasks.length)
    (hs : ∀ j, j < k → isOk (execAt τ.tasks j) = true)
    (hf : execAt τ.tasks k = Except.error e) :
    Transaction.execute τ =
      { val := Except.error (Err.txError e (rbErrsOf τ.tasks k)),
        trace := (List.range (k + 1)).map (eEv τ.tasks) ++
          (List.range k).reverse.map (rEv τ.tasks (fwdCtx τ.tasks k)),
        post := { τ with state := TransactionState.NotStarted } } := by
  have h1 : τ.tasks ≠ [] := by
    intro hx
    rw [hx] at hk
    exact absurd hk (by simp)
  rw [Transaction.execute]
  simp only [h2, ne_eq, not_true_eq_false, if_false]
  rw [if_neg (by simp [h1])]
  rw [fwdLoop_fail τ.tasks k e hk hs hf]
  simp only [rbRun, rbSweep_eq, rbErrsOf]

/-! ### `rollback` / `internalRollback` characterization -/

/-- The errors a sweep over tasks `count - 1 .. 0` with context `c` collects,
in attempt order. -/
def sweepErrs (ts : List Task) (c : Ctx) (count : Nat) : List Err :=
  (List.range count).reverse.filterMap fun i => errPart (rbAt ts i c)

theorem internalRollback_eq (τ : Transaction) (c : Ctx) (count : Nat) :
    internalRollback τ c count =
      { val := if (sweepErrs τ.tasks c count).isEmpty then Except.ok ()
               else Except.error (Err.errList (sweepErrs τ.tasks c count)),
        trace := (List.range count).reverse.map (rEv τ.tasks c),
        post := { τ with state := TransactionState.NotStarted } } := by
  simp only [internalRollback, rbRun, rbSweep_eq, sweepErrs]

theorem rollback_notFinished (τ : Transaction) (c : Ctx)
    (h : τ.state ≠ TransactionState.Finished) :
    Transaction.rollback τ c =
      { val := Except.error (Err.invalidOp rbMsg), trace := [], post := τ } := by
  rw [Transaction.rollback, if_neg h]

theorem rollback_finished (τ : Transaction) (c : Ctx)
    (h : τ.state = TransactionState.Finished) :
    Transaction.rollback τ c = internalRollback τ c τ.tasks.length := by
  rw [Transaction.rollback, if_pos h]

/-! ### Key discipline and retrievability

The spec makes task-name uniqueness a caller responsibility; retrievability
of every result by both index and name additionally requires that no task
name collides with a reserved object key (the decimal string of an index, or
`final`), since a JS object has a single key space. -/

/-- The name discipline under which the double-keyed result mapping works:
names are pairwise distinct, none is the reserved `final` key, and none is
the decimal string of a task index. -/
def NameHygiene (ts : List Task) : Prop :=
  (∀ i, i < ts.length → ∀ j, j < ts.length → i ≠ j → nameAt ts i ≠ nameAt ts j) ∧
  (∀ i, i < ts.length → nameAt ts i ≠ "final") ∧
  (∀ i, i < ts.length → ∀ j, j < ts.length → nameAt ts i ≠ idxKey j)

instance (ts : List Task) : Decidable (NameHygiene ts) := by
  unfold NameHygiene
  infer_instance

theorem fwdCtx_get_idx (ts : List Task) (hh : NameHygiene ts) (i m : Nat)
    (hi : i < m) (hm : m ≤ ts.length)
    (hs : ∀ j, j < m → isOk (execAt ts j) = true) :
    ctxGet (fwdCtx ts m) (idxKey i) = some (fwdVal ts i) := by
  induction m with
  | zero => omega
  | succ m ih =>
      have hml : m < ts.length := by omega
      have ht : ts[m]? = some ts[m] := List.getElem?_eq_getElem hml
      obtain ⟨v, hv⟩ := (isOk_iff _).1 (hs m (Nat.lt_succ_self m))
      have hv' : ts[m].exec (fwdCtx ts m) = Except.ok v := by
        rw [execAt_some ts m _ ht] at hv
        exact hv
      rw [fwdCtx_succ_ok ts m _ v ht hv']
      rcases Nat.lt_or_ge i m with him | him
      · rw [ctxGet_pushResult_other _ _ _ _ _
          (fun hx => absurd (idxKey_injective i m hx) (by omega))
          (fun hx => hh.2.2 m hml i (by omega) (by rw [← nameAt_some ts m _ ht] at hx; exact hx.symm))]
        exact ih him (by omega) (fun j hj => hs j (by omega))
      · have : i = m := by omega
        subst this
        rw [ctxGet_pushResult_idx]
        rw [fwdVal, hv]

theorem fwdCtx_get_name (ts : List Task) (hh : NameHygiene ts) (i m : Nat)
    (hi : i < m) (hm : m ≤ ts.length)
    (hs : ∀ j, j < m → isOk (execAt ts j) = true) :
    ctxGet (fwdCtx ts m) (nameAt ts i) = some (fwdVal ts i) := by
  induction m with
  | zero => omega
  | succ m ih =>
      have hml : m < ts.length := by omega
      have ht : ts[m]? = some ts[m] := List.getElem?_eq_getElem hml
      obtain ⟨v, hv⟩ := (isOk_iff _).1 (hs m (Nat.lt_succ_self m))
      have hv' : ts[m].exec (fwdCtx ts m) = Except.ok v := by
        rw [execAt_some ts m _ ht] at hv
        exact hv
      rw [fwdCtx_succ_ok ts m _ v ht hv']
      rcases Nat.lt_or_ge i m with him | him
      · rw [ctxGet_pushResult_other _ _ _ _ _
          (hh.2.2 i (by omega) m hml)
          (by
            rw [← nameAt_some ts m _ ht]
            exact hh.1 i (by omega) m hml (by omega))]
        exact ih him (by omega) (fun j hj => hs j (by omega))
      · have : i = m := by omega
        subst this
        rw [← nameAt_some ts i _ ht] at *
        rw [ctxGet_pushResult_name]
        rw [fwdVal, hv]

theorem fwdCtx_get_final (ts : List Task) (hh : NameHygiene ts) (m : Nat)
    (hm : m ≤ ts.length)
    (hs : ∀ j, j < m → isOk (execAt ts j) = true) :
    ctxGet (fwdCtx ts m) "final" = some Value.vnull := by
  induction m with
  | zero => rfl
  | succ m ih =>
      have hml : m < ts.length := by omega
      have ht : ts[m]? = some ts[m] := List.getElem?_eq_getElem hml
      obtain ⟨v, hv⟩ := (isOk_iff _).1 (hs m (Nat.lt_succ_self m))
      have hv' : ts[m].exec (fwdCtx ts m) = Except.ok v := by
        rw [execAt_some ts m _ ht] at hv
        exact hv
      rw [fwdCtx_succ_ok ts m _ v ht hv']
      rw [ctxGet_pushResult_other _ _ _ _ _
        (fun hx => idxKey_ne_final m hx.symm)
        (by
          rw [← nameAt_some ts m _ ht]
          exact fun hx => hh.2.1 m hml hx.symm)]
      exact ih (by omega) (fun j hj => hs j (by omega))

theorem ctxSet_fresh (c : Ctx) (k : String) (v : Value) (h : ∀ p ∈ c, p.1 ≠ k) :
    ctxSet c k v = c ++ [(k, v)] := by
  induction c with
  | nil => rfl
  | cons p rest ih =>
      obtain ⟨k₀, v₀⟩ := p
      show (if k₀ = k then (k₀, v) :: rest else (k₀, v₀) :: ctxSet rest k v) = _
      rw [if_neg (h (k₀, v₀) (by simp))]
      rw [ih (fun q hq => h q (by simp [hq]))]
      rfl

/-- The exact contents of the context a task at position `m` observes, under
the name discipline: the cleared `final` slot followed by the index and name
entries of tasks `0 .. m-1`, in completion order. -/
theorem fwdCtx_shape (ts : List Task) (hh : NameHygiene ts) (m : Nat)
    (hm : m ≤ ts.length)
    (hs : ∀ j, j < m → isOk (execAt ts j) = true) :
    fwdCtx ts m = ("final", Value.vnull) ::
      (List.range m).flatMap
        (fun j => [(idxKey j, fwdVal ts j), (nameAt ts j, fwdVal ts j)]) := by
  induction m with
  | zero => rfl
  | succ m ih =>
      have hml : m < ts.length := by omega
      have ht : ts[m]? = some ts[m] := List.getElem?_eq_getElem hml
      obtain ⟨v, hv⟩ := (isOk_iff _).1 (hs m (Nat.lt_succ_self m))
      have hv' : ts[m].exec (fwdCtx ts m) = Except.ok v := by
        rw [execAt_some ts m _ ht] at hv
        exact hv
      have hshape := ih (by omega) (fun j hj => hs j (by omega))
      have hfresh : ∀ key : String, key ≠ "final" →
          (∀ j, j < m → key ≠ idxKey j) → (∀ j, j < m → key ≠ nameAt ts j) →
          ∀ p ∈ fwdCtx ts m, p.1 ≠ key := by
        intro key hkf hki hkn p hp
        rw [hshape] at hp
        rcases List.mem_cons.1 hp with hp | hp
        · rw [hp]
          exact fun hx => hkf hx.symm
        · rw [List.mem_flatMap] at hp
          obtain ⟨j, hj, hpj⟩ := hp
          rw [List.mem_range] at hj
          rcases List.mem_cons.1 hpj with hpj | hpj
          · rw [hpj]
            exact fun hx => hki j hj hx.symm
          · rcases List.mem_cons.1 hpj with hpj | hpj
            · rw [hpj]
              exact fun hx => hkn j hj hx.symm
            · exact absurd hpj (List.not_mem_nil p)
      rw [fwdCtx_succ_ok ts m _ v ht hv', pushResult]
      rw [ctxSet_fresh _ _ _ (hfresh (idxKey m) (idxKey_ne_final m)
        (fun j hj hx => absurd (idxKey_injective m j hx) (by omega))
        (fun j hj hx => hh.2.2 j (by omega) m hml hx.symm))]
      have hmemApp : ∀ p ∈ fwdCtx ts m ++ [(idxKey m, v)], p.1 ≠ ts[m].name := by
        intro p hp
        rcases List.mem_append.1 hp with hp | hp
        · refine hfresh ts[m].name ?_ ?_ ?_ p hp
          · rw [← nameAt_some ts m _ ht]
            exact hh.2.1 m hml
          · intro j hj
            rw [← nameAt_some ts m _ ht]
            exact hh.2.2 m hml j (by omega)
          · intro j hj
            rw [← nameAt_some ts m _ ht]
            exact hh.1 m hml j (by omega) (by omega)
        · rcases List.mem_cons.1 hp with hp | hp
          · rw [hp]
            intro hx
            refine hh.2.2 m hml m hml ?_
            rw [nameAt_some ts m _ ht]
            exact hx.symm
          · exact absurd hp (List.not_mem_nil p)
      rw [ctxSet_fresh _ _ _ hmemApp]
      rw [hshape, List.range_succ, List.flatMap_append]
      have hvm : fwdVal ts m = v := by rw [fwdVal, hv]
      simp [hvm, nameAt_some ts m _ ht]

/-! ### Shape of a fresh run -/

/-- A run past both precondition checks either finishes with a result context
or fails with a `TransactionError`; either way the task list is kept, and the
state ends `Finished` on success and `NotStarted` after compensation. -/
theorem execute_run_shape (τ : Transaction) (h1 : τ.tasks ≠ [])
    (h2 : τ.state = TransactionState.NotStarted) :
    ((∃ c, (Transaction.execute τ).val = Except.ok c) ∧
      (Transaction.execute τ).post = { τ with state := TransactionState.Finished }) ∨
    ((∃ e rbs, (Transaction.execute τ).val = Except.error (Err.txError e rbs)) ∧
      (Transaction.execute τ).post = { τ with state := TransactionState.NotStarted }) := by
  rw [Transaction.execute]
  rw [if_neg (by simp [h1])]
  rw [if_neg (by simp [h2])]
  dsimp only
  cases hout : (fwdLoop τ.tasks 0 initCtx).2.2.2 with
  | none =>
      left
      exact ⟨⟨_, rfl⟩, rfl⟩
  | some cause =>
      right
      exact ⟨⟨cause, _, rfl⟩, rfl⟩

/-- A successful run always populates the `final` slot of its result. -/
theorem execute_ok_final (τ : Transaction) (c : Ctx)
    (h : (Transaction.execute τ).val = Except.ok c) :
    ∃ v, ctxGet c "final" = some v := by
  by_cases h1 : τ.tasks = []
  · rw [execute_emptyTasks τ h1] at h
    exact absurd h (by simp)
  by_cases h2 : τ.state = TransactionState.NotStarted
  · rw [Transaction.execute] at h
    rw [if_neg (by simp [h1])] at h
    rw [if_neg (by simp [h2])] at h
    dsimp only at h
    revert h
    cases hout : (fwdLoop τ.tasks 0 initCtx).2.2.2 with
    | none =>
        intro h
        simp only [Except.ok.injEq] at h
        rw [← h]
        exact ⟨_, ctxGet_ctxSet_self _ _ _⟩
    | some cause =>
        intro h
        exact absurd h (by simp)
  · rw [execute_notFresh τ h1 h2] at h
    exact absurd h (by simp)

/-- The trace of a fresh run starts with its forward-pass invocations. -/
theorem execute_trace_prefix (τ : Transaction) (h1 : τ.tasks ≠ [])
    (h2 : τ.state = TransactionState.NotStarted) :
    ∃ tl, (Transaction.execute τ).trace = (fwdLoop τ.tasks 0 initCtx).2.2.1 ++ tl := by
  rw [Transaction.execute]
  rw [if_neg (by simp [h1])]
  rw [if_neg (by simp [h2])]
  dsimp only
  cases hout : (fwdLoop τ.tasks 0 initCtx).2.2.2 with
  | none =>
      exact ⟨[], by simp⟩
  | some cause =>
      exact ⟨_, rfl⟩

/-! ### Concrete tasks for the closed scenarios -/

/-- A task that always succeeds with a fixed value and rolls back cleanly. -/
def okTask (nm : String) (v : Value) : Task :=
  { name := nm, exec := fun _ => Except.ok v, rb := fun _ => Except.ok () }

/-- A task whose `execute` always fails with a fixed error. -/
def failTask (nm : String) (e : Err) : Task :=
  { name := nm, exec := fun _ => Except.error e, rb := fun _ => Except.ok () }

/-- A task that succeeds but whose `rollback` fails with a fixed error. -/
def rbFailTask (nm : String) (v : Value) (e : Err) : Task :=
  { name := nm, exec := fun _ => Except.ok v, rb := fun _ => Except.error e }

/-! ### The claims -/

/-- C1: if the forward pass of `execute` fails at task `k` (every earlier task
succeeded), then each task `0 .. k-1` receives exactly one rollback call, in
strictly descending index order, task `k` and later tasks receive none — the
rollback invocations of the run are exactly `k-1, …, 0` — and the aggregate
error's `cause` is the error task `k` raised. -/
theorem c1_fail_rolls_back_completed_desc (nm : String) (ts : List Task) (k : Nat)
    (e : Err) (hk : k < ts.length)
    (hs : ∀ j, j < k → isOk (execAt ts j) = true)
    (hf : execAt ts k = Except.error e) :
    (∃ rbs, (execNS nm ts).val = Except.error (Err.txError e rbs)) ∧
    rbIndices (execNS nm ts).trace = (List.range k).reverse ∧
    execIndices (execNS nm ts).trace = List.range (k + 1) := by
  have hx := execute_fail ⟨nm, ts, TransactionState.NotStarted⟩ k e rfl hk hs hf
  rw [execNS, hx]
  refine ⟨⟨rbErrsOf ts k, rfl⟩, ?_, ?_⟩
  · rw [rbIndices_append, rbIndices_execMap, rbIndices_rbMap]
    simp
  · rw [execIndices_append, execIndices_execMap, execIndices_rbMap]
    simp

/-- C1 witness: three tasks, the third fails; tasks 1 then 0 are rolled back,
the cause is task 2's error. -/
theorem c1_witness :
    (∃ rbs, (execNS "t" [okTask "a" (Value.vnat 1), okTask "b" (Value.vnat 2),
        failTask "c" (Err.raw (Value.vstr "boom"))]).val =
      Except.error (Err.txError (Err.raw (Value.vstr "boom")) rbs)) ∧
    rbIndices (execNS "t" [okTask "a" (Value.vnat 1), okTask "b" (Value.vnat 2),
        failTask "c" (Err.raw (Value.vstr "boom"))]).trace = [1, 0] ∧
    execIndices (execNS "t" [okTask "a" (Value.vnat 1), okTask "b" (Value.vnat 2),
        failTask "c" (Err.raw (Value.vstr "boom"))]).trace = [0, 1, 2] := by
  have := c1_fail_rolls_back_completed_desc "t"
    [okTask "a" (Value.vnat 1), okTask "b" (Value.vnat 2),
      failTask "c" (Err.raw (Value.vstr "boom"))]
    2 (Err.raw (Value.vstr "boom")) (by decide) (by decide) rfl
  simpa using this

/-- C2: when the forward pass fails at task `k`, a rollback failure does not
stop the sweep — every completed task is still swept (calls `k-1, …, 0`) —
and `execute` fails with a `TransactionError` whose `cause` is the original
task failure and whose `rollbackErrors` are exactly the failures of the
attempted rollbacks in attempt (descending-index) order, empty when all
compensations succeed. -/
theorem c2_rollback_failures_collected (nm : String) (ts : List Task) (k : Nat)
    (e : Err) (hk : k < ts.length)
    (hs : ∀ j, j < k → isOk (execAt ts j) = true)
    (hf : execAt ts k = Except.error e) :
    (execNS nm ts).val = Except.error (Err.txError e
      ((List.range k).reverse.filterMap fun i => errPart (rbAt ts i (fwdCtx ts k)))) ∧
    rbIndices (execNS nm ts).trace = (List.range k).reverse := by
  have hx := execute_fail ⟨nm, ts, TransactionState.NotStarted⟩ k e rfl hk hs hf
  rw [execNS, hx]
  refine ⟨rfl, ?_⟩
  rw [rbIndices_append, rbIndices_execMap, rbIndices_rbMap]
  simp

/-- C2 witness: task 0's rollback fails, task 1's execute fails; task 0 is
still swept and its rollback error is collected after nothing else, with the
original failure as cause. -/
theorem c2_witness :
    (execNS "t" [rbFailTask "a" (Value.vnat 1) (Err.raw (Value.vstr "rb-a")),
        failTask "b" (Err.raw (Value.vstr "boom"))]).val =
      Except.error (Err.txError (Err.raw (Value.vstr "boom"))
        [Err.raw (Value.vstr "rb-a")]) ∧
    rbIndices (execNS "t" [rbFailTask "a" (Value.vnat 1) (Err.raw (Value.vstr "rb-a")),
        failTask "b" (Err.raw (Value.vstr "boom"))]).trace = [0] := by
  have := c2_rollback_failures_collected "t"
    [rbFailTask "a" (Value.vnat 1) (Err.raw (Value.vstr "rb-a")),
      failTask "b" (Err.raw (Value.vstr "boom"))]
    1 (Err.raw (Value.vstr "boom")) (by decide) (by decide) rfl
  simpa using this

/-- C3 counterexample: the claim quantifies over every task sequence, but a
task name equal to an index's decimal key shares that key in the JS object.
Here task 0 is named `"1"`: both tasks succeed, yet reading the result under
task 0's name yields task 1's result `vnat 20`, not task 0's `vnat 10`. -/
theorem c3_counterexample :
    execAt [okTask "1" (Value.vnat 10), okTask "b" (Value.vnat 20)] 0 =
      Except.ok (Value.vnat 10) ∧
    (execNS "t" [okTask "1" (Value.vnat 10), okTask "b" (Value.vnat 20)]).val =
      Except.ok [("final", Value.vnat 20), ("0", Value.vnat 10),
        ("1", Value.vnat 20), ("b", Value.vnat 20)] ∧
    ctxGet [("final", Value.vnat 20), ("0", Value.vnat 10),
      ("1", Value.vnat 20), ("b", Value.vnat 20)] "1" = some (Value.vnat 20) ∧
    Value.vnat 20 ≠ Value.vnat 10 :=
  ⟨rfl, rfl, rfl, by simp⟩

/-- C3 (amended): for every non-empty task sequence whose names are pairwise
distinct and collide with no reserved key (`final` or a decimal index), if
every task succeeds from `NotStarted` then `execute` returns a mapping in
which each task's result is retrievable by its index key and by its name, the
`final` entry equals the last task's result, the state becomes `Finished`,
and no rollback is invoked. -/
theorem c3_success_mapping (nm : String) (ts : List Task)
    (h1 : ts ≠ []) (hh : NameHygiene ts)
    (hall : ∀ j, j < ts.length → isOk (execAt ts j) = true) :
    (∃ c, (execNS nm ts).val = Except.ok c ∧
      (∀ i, i < ts.length → ctxGet c (idxKey i) = some (fwdVal ts i)) ∧
      (∀ i, i < ts.length → ctxGet c (nameAt ts i) = some (fwdVal ts i)) ∧
      ctxGet c "final" = some (fwdVal ts (ts.length - 1))) ∧
    (execNS nm ts).post.state = TransactionState.Finished ∧
    rbIndices (execNS nm ts).trace = [] := by
  have hx := execute_all_ok ⟨nm, ts, TransactionState.NotStarted⟩ h1 rfl hall
  have hn1 : ts.length - 1 < ts.length := by
    cases ts with
    | nil => exact absurd rfl h1
    | cons a l => simp
  have hfin : ctxGet (fwdCtx ts ts.length) (idxKey (ts.length - 1)) =
      some (fwdVal ts (ts.length - 1)) :=
    fwdCtx_get_idx ts hh (ts.length - 1) ts.length hn1 le_rfl hall
  rw [execNS, hx]
  dsimp only
  rw [hfin]
  simp only [Option.getD_some]
  refine ⟨⟨_, rfl, ?_, ?_, ?_⟩, ?_, ?_⟩
  · intro i hi
    rw [ctxGet_ctxSet_ne _ _ _ _ (idxKey_ne_final i)]
    exact fwdCtx_get_idx ts hh i ts.length hi le_rfl hall
  · intro i hi
    rw [ctxGet_ctxSet_ne _ _ _ _ (hh.2.1 i hi)]
    exact fwdCtx_get_name ts hh i ts.length hi le_rfl hall
  · exact ctxGet_ctxSet_self _ _ _
  · trivial
  · exact rbIndices_execMap ts _

/-- C3 witness: the spec's own concrete scenario, `A` returning 7 and `B`
returning 14: both retrievable by index and name, `final` is 14, state ends
`Finished`, no rollback happens. -/
theorem c3_witness :
    (∃ c, (execNS "t" [okTask "A" (Value.vnat 7), okTask "B" (Value.vnat 14)]).val =
        Except.ok c ∧
      (∀ i, i < 2 → ctxGet c (idxKey i) =
        some (fwdVal [okTask "A" (Value.vnat 7), okTask "B" (Value.vnat 14)] i)) ∧
      (∀ i, i < 2 → ctxGet c (nameAt [okTask "A" (Value.vnat 7), okTask "B" (Value.vnat 14)] i) =
        some (fwdVal [okTask "A" (Value.vnat 7), okTask "B" (Value.vnat 14)] i)) ∧
      ctxGet c "final" = some (fwdVal [okTask "A" (Value.vnat 7), okTask "B" (Value.vnat 14)] 1)) ∧
    (execNS "t" [okTask "A" (Value.vnat 7), okTask "B" (Value.vnat 14)]).post.state =
      TransactionState.Finished ∧
    rbIndices (execNS "t" [okTask "A" (Value.vnat 7), okTask "B" (Value.vnat 14)]).trace = [] := by
  have := c3_success_mapping "t" [okTask "A" (Value.vnat 7), okTask "B" (Value.vnat 14)]
    (by simp) (by decide) (by decide)
  simpa using this

/-- C7 counterexample: two tasks share the name `"a"`, so the context handed
to task 2 holds task 1's result under that name; the entry for task 0's name
with task 0's result (`vnat 1`) is gone, refuting "contains exactly the
entries (index and name) of the tasks at positions 0..i-1". -/
theorem c7_counterexample :
    execAt [okTask "a" (Value.vnat 1), okTask "a" (Value.vnat 2),
      okTask "c" (Value.vnat 3)] 0 = Except.ok (Value.vnat 1) ∧
    (execNS "t" [okTask "a" (Value.vnat 1), okTask "a" (Value.vnat 2),
        okTask "c" (Value.vnat 3)]).trace =
      [Event.execCall 0 "a" [("final", Value.vnull)],
       Event.execCall 1 "a" [("final", Value.vnull), ("0", Value.vnat 1), ("a", Value.vnat 1)],
       Event.execCall 2 "c" [("final", Value.vnull), ("0", Value.vnat 1),
         ("a", Value.vnat 2), ("1", Value.vnat 2)]] ∧
    ctxGet [("final", Value.vnull), ("0", Value.vnat 1), ("a", Value.vnat 2),
      ("1", Value.vnat 2)] "a" = some (Value.vnat 2) ∧
    Value.vnat 2 ≠ Value.vnat 1 :=
  ⟨rfl, rfl, rfl, by simp⟩

/-- C7 (amended): under the name discipline, the context the engine passes to
task `i` (once tasks `0 .. i-1` succeeded) is exactly the cleared `final`
slot followed by the index and name entries of tasks `0 .. i-1` in completion
order — nothing of task `i` or later tasks — with `final` still null; and on
the failure path at task `i` every rollback receives that same still-partial
context. -/
theorem c7_context_visibility (nm : String) (ts : List Task) (i : Nat)
    (hh : NameHygiene ts) (hi : i ≤ ts.length)
    (hs : ∀ j, j < i → isOk (execAt ts j) = true) :
    fwdCtx ts i = ("final", Value.vnull) ::
      (List.range i).flatMap
        (fun j => [(idxKey j, fwdVal ts j), (nameAt ts j, fwdVal ts j)]) ∧
    ctxGet (fwdCtx ts i) "final" = some Value.vnull ∧
    (i < ts.length → ∃ tl, (execNS nm ts).trace =
      (List.range (i + 1)).map (eEv ts) ++ tl) ∧
    (∀ e, execAt ts i = Except.error e → i < ts.length →
      (execNS nm ts).trace = (List.range (i + 1)).map (eEv ts) ++
        (List.range i).reverse.map (rEv ts (fwdCtx ts i))) := by
  refine ⟨fwdCtx_shape ts hh i hi hs, fwdCtx_get_final ts hh i hi hs, ?_, ?_⟩
  · intro hilen
    have h1 : ts ≠ [] := by
      intro hx
      rw [hx] at hilen
      exact absurd hilen (by simp)
    obtain ⟨tl1, htl1⟩ := fwdLoop_prefix ts i hilen hs
    obtain ⟨tl2, htl2⟩ :=
      execute_trace_prefix ⟨nm, ts, TransactionState.NotStarted⟩ h1 rfl
    refine ⟨tl1 ++ tl2, ?_⟩
    rw [execNS, htl2, htl1]
    simp
  · intro e he hilen
    have hx := execute_fail ⟨nm, ts, TransactionState.NotStarted⟩ i e rfl hilen hs he
    rw [execNS, hx]

/-- C7 witness: with distinct, reserved-free names and task 0 succeeding, the
context task 1 observes is exactly task 0's two entries after the null
`final` slot, and when task 1 fails, task 0's rollback sees that context. -/
theorem c7_witness :
    fwdCtx [okTask "a" (Value.vnat 1), failTask "b" (Err.raw (Value.vstr "boom"))] 1 =
      ("final", Value.vnull) ::
        (List.range 1).flatMap
          (fun j => [(idxKey j,
              fwdVal [okTask "a" (Value.vnat 1), failTask "b" (Err.raw (Value.vstr "boom"))] j),
            (nameAt [okTask "a" (Value.vnat 1), failTask "b" (Err.raw (Value.vstr "boom"))] j,
              fwdVal [okTask "a" (Value.vnat 1), failTask "b" (Err.raw (Value.vstr "boom"))] j)]) ∧
    ctxGet (fwdCtx [okTask "a" (Value.vnat 1),
      failTask "b" (Err.raw (Value.vstr "boom"))] 1) "final" = some Value.vnull ∧
    (1 < 2 → ∃ tl,
      (execNS "t" [okTask "a" (Value.vnat 1), failTask "b" (Err.raw (Value.vstr "boom"))]).trace =
        (List.range 2).map (eEv [okTask "a" (Value.vnat 1),
          failTask "b" (Err.raw (Value.vstr "boom"))]) ++ tl) ∧
    (∀ e, execAt [okTask "a" (Value.vnat 1), failTask "b" (Err.raw (Value.vstr "boom"))] 1 =
        Except.error e → 1 < 2 →
      (execNS "t" [okTask "a" (Value.vnat 1), failTask "b" (Err.raw (Value.vstr "boom"))]).trace =
        (List.range 2).map (eEv [okTask "a" (Value.vnat 1),
          failTask "b" (Err.raw (Value.vstr "boom"))]) ++
        (List.range 1).reverse.map (rEv [okTask "a" (Value.vnat 1),
          failTask "b" (Err.raw (Value.vstr "boom"))]
          (fwdCtx [okTask "a" (Value.vnat 1), failTask "b" (Err.raw (Value.vstr "boom"))] 1))) := by
  have := c7_context_visibility "t"
    [okTask "a" (Value.vnat 1), failTask "b" (Err.raw (Value.vstr "boom"))] 1
    (by decide) (by decide) (by decide)
  simpa using this

/-- A two-task transaction that has finished, as an outer transaction's
compensation sweep would find an inner transaction-as-task. -/
def tx4 : Transaction :=
  { name := "in", tasks := [okTask "p" (Value.vnat 1), okTask "q" (Value.vnat 2)],
    state := TransactionState.Finished }

/-- C4 counterexample: the Task-facing `rollback` of this concrete finished
two-task transaction is a function of the context alone, and its sweep is
`[1, 0]` — all tasks — whatever it is invoked with: no invocation the outer
loop can perform restricts the sweep to a stage `N = 0`, so the rollback of a
transaction-as-task cannot be "told to roll back only up to a specific stage
N (not necessarily all tasks)". -/
theorem c4_counterexample :
    (fun c => rbIndices (Transaction.rollback tx4 c).trace) = (fun _ : Ctx => [1, 0]) ∧
    rbIndices (Transaction.rollback tx4 initCtx).trace = [1, 0] := by
  refine ⟨funext fun c => ?_, rfl⟩
  rfl

/-- C4 (amended): the stage-bounded sweep exists only as the private
`internalRollback`: with `count = N + 1 ≤ tasks.length` it rolls back exactly
stages `N, …, 0`; the public/Task-facing entry point takes no stage argument
and always runs it with `count = tasks.length` (roll back everything).  The
stage is supplied by the transaction's own failed `execute`, never by the
outer loop. -/
theorem c4_stage_bounded_rollback_is_internal (τ : Transaction) (c : Ctx)
    (count : Nat) (h : τ.state = TransactionState.Finished)
    (_hc : count ≤ τ.tasks.length) :
    Transaction.rollback τ c = internalRollback τ c τ.tasks.length ∧
    rbIndices (internalRollback τ c count).trace = (List.range count).reverse := by
  refine ⟨rollback_finished τ c h, ?_⟩
  rw [internalRollback_eq]
  exact rbIndices_rbMap _ _ _

/-- C4 witness: on the concrete finished transaction, the public entry point
sweeps everything (`count = 2`), while the internal sweep bounded to stage 0
(`count = 1`) rolls back only task 0. -/
theorem c4_witness :
    Transaction.rollback tx4 initCtx = internalRollback tx4 initCtx 2 ∧
    rbIndices (internalRollback tx4 initCtx 1).trace = [0] := by
  have := c4_stage_bounded_rollback_is_internal tx4 initCtx 1 rfl (by decide)
  simpa using this

/-- A one-task transaction whose task fails, for the C5 witness. -/
def tx5 : Transaction :=
  { name := "t", tasks := [failTask "a" (Err.raw (Value.vstr "boom"))],
    state := TransactionState.NotStarted }

/-- C5: whenever `execute` fails with a `TransactionError` (its compensation
sweep has run, with or without rollback failures), the instance is left in
state `NotStarted` with its task list intact, re-executing it cannot fail
with an invalid-operation error, and `NotStarted`, `Running`, `Finished` are
the only states. -/
theorem c5_state_reset_after_failure (τ : Transaction) (cause : Err)
    (rbs : List Err)
    (h : (Transaction.execute τ).val = Except.error (Err.txError cause rbs)) :
    (Transaction.execute τ).post.state = TransactionState.NotStarted ∧
    (Transaction.execute τ).post.tasks = τ.tasks ∧
    (∀ m, (Transaction.execute ((Transaction.execute τ).post)).val ≠
      Except.error (Err.invalidOp m)) ∧
    (∀ s : TransactionState, s = TransactionState.NotStarted ∨
      s = TransactionState.Running ∨ s = TransactionState.Finished) := by
  by_cases h1 : τ.tasks = []
  · rw [execute_emptyTasks τ h1] at h
    exact absurd h (by simp)
  by_cases h2 : τ.state = TransactionState.NotStarted
  · rcases execute_run_shape τ h1 h2 with ⟨⟨c, hc⟩, _⟩ | ⟨_, hpost⟩
    · rw [hc] at h
      exact absurd h (by simp)
    · have hps : (Transaction.execute τ).post.state = TransactionState.NotStarted := by
        rw [hpost]
      have hpt : (Transaction.execute τ).post.tasks = τ.tasks := by
        rw [hpost]
      refine ⟨hps, hpt, ?_, fun s => by cases s <;> simp⟩
      intro m
      have hpt' : (Transaction.execute τ).post.tasks ≠ [] := by
        rw [hpt]
        exact h1
      rcases execute_run_shape ((Transaction.execute τ).post) hpt' hps with
        ⟨⟨c2, hc2⟩, _⟩ | ⟨⟨e2, rbs2, he2⟩, _⟩
      · rw [hc2]
        simp
      · rw [he2]
        simp
  · rw [execute_notFresh τ h1 h2] at h
    exact absurd h (by simp)

/-- C5 witness: a transaction whose single task fails ends `NotStarted` with
its task kept, and re-running it does not hit a precondition error. -/
theorem c5_witness :
    (Transaction.execute tx5).post.state = TransactionState.NotStarted ∧
    (Transaction.execute tx5).post.tasks = tx5.tasks ∧
    (∀ m, (Transaction.execute ((Transaction.execute tx5).post)).val ≠
      Except.error (Err.invalidOp m)) ∧
    (∀ s : TransactionState, s = TransactionState.NotStarted ∨
      s = TransactionState.Running ∨ s = TransactionState.Finished) :=
  c5_state_reset_after_failure tx5 (Err.raw (Value.vstr "boom")) [] rfl

/-- C6: directly invoked `rollback` fails with the invalid-operation error
and touches nothing whenever the state is not `Finished`; from `Finished` it
sweeps all tasks in reverse order handing each the given context, resets the
state to `NotStarted` whether or not compensations failed, and fails with the
bare collected error list (in attempt order) exactly when one failed — a
value of a different shape (`errList`) than the `txError` thrown by
`execute`. -/
theorem c6_direct_rollback (τ : Transaction) (c : Ctx) :
    (τ.state ≠ TransactionState.Finished →
      Transaction.rollback τ c =
        { val := Except.error (Err.invalidOp rbMsg), trace := [], post := τ }) ∧
    (τ.state = TransactionState.Finished →
      (Transaction.rollback τ c).trace =
        (List.range τ.tasks.length).reverse.map (rEv τ.tasks c) ∧
      rbIndices (Transaction.rollback τ c).trace =
        (List.range τ.tasks.length).reverse ∧
      (Transaction.rollback τ c).post.state = TransactionState.NotStarted ∧
      (Transaction.rollback τ c).val =
        (if (sweepErrs τ.tasks c τ.tasks.length).isEmpty then Except.ok ()
         else Except.error (Err.errList (sweepErrs τ.tasks c τ.tasks.length)))) ∧
    (∀ es cause rbs, Err.errList es ≠ Err.txError cause rbs) := by
  refine ⟨rollback_notFinished τ c, fun h => ?_, fun es cause rbs => by simp⟩
  rw [rollback_finished τ c h, internalRollback_eq]
  exact ⟨rfl, rbIndices_rbMap _ _ _, rfl, rfl⟩

/-- C8: `execute` with no tasks fails with the empty-list invalid-operation
error and invokes nothing; `execute` on an instance that is not `NotStarted`
(in particular, one that has already executed successfully) fails with the
run-once invalid-operation error and performs no task execution or rollback;
and the two errors are distinct values. -/
theorem c8_execute_preconditions (τ : Transaction) :
    (τ.tasks = [] → Transaction.execute τ =
      { val := Except.error (Err.invalidOp emptyMsg), trace := [], post := τ }) ∧
    (τ.tasks ≠ [] → τ.state ≠ TransactionState.NotStarted →
      Transaction.execute τ =
        { val := Except.error (Err.invalidOp onceMsg), trace := [], post := τ }) ∧
    (∀ c, (Transaction.execute τ).val = Except.ok c →
      Transaction.execute ((Transaction.execute τ).post) =
        { val := Except.error (Err.invalidOp onceMsg), trace := [],
          post := (Transaction.execute τ).post }) ∧
    Err.invalidOp emptyMsg ≠ Err.invalidOp onceMsg := by
  refine ⟨execute_emptyTasks τ, execute_notFresh τ, ?_, ?_⟩
  · intro c hc
    by_cases h1 : τ.tasks = []
    · rw [execute_emptyTasks τ h1] at hc
      exact absurd hc (by simp)
    by_cases h2 : τ.state = TransactionState.NotStarted
    · rcases execute_run_shape τ h1 h2 with ⟨_, hpost⟩ | ⟨⟨e, rbs, he⟩, _⟩
      · refine execute_notFresh _ ?_ ?_
        · rw [hpost]
          exact h1
        · rw [hpost]
          simp
      · rw [he] at hc
        exact absurd hc (by simp)
    · rw [execute_notFresh τ h1 h2] at hc
      exact absurd hc (by simp)
  · intro h
    injection h with h'
    rw [emptyMsg, onceMsg] at h'
    exact absurd h' (by decide)

/-- C9: an inner transaction whose `execute` resolves with result context
`ictx`, placed as task `j` of an outer list: the outer forward pass records
the whole inner `ResultContext` (as a value) under the inner transaction's
name, that context carries a `final` entry, and the next outer task is then
invoked on a context containing it. -/
theorem c9_nested_result_exposed (nm : String) (ts : List Task)
    (inner : Transaction) (j : Nat) (ictx : Ctx)
    (hj : ts[j]? = some (asTask inner))
    (hok : (Transaction.execute inner).val = Except.ok ictx)
    (hs : ∀ i, i < j → isOk (execAt ts i) = true) :
    execAt ts j = Except.ok (Value.vctx ictx) ∧
    ctxGet (fwdCtx ts (j + 1)) inner.name = some (Value.vctx ictx) ∧
    (∃ fv, ctxGet ictx "final" = some fv) ∧
    (j + 1 < ts.length → ∃ tl, (execNS nm ts).trace =
      (List.range (j + 2)).map (eEv ts) ++ tl) := by
  have hexec : execAt ts j = Except.ok (Value.vctx ictx) := by
    rw [execAt_some ts j _ hj]
    show (Transaction.execute inner).val.map Value.vctx = _
    rw [hok]
    rfl
  have hv' : (asTask inner).exec (fwdCtx ts j) = Except.ok (Value.vctx ictx) := by
    rw [← execAt_some ts j _ hj]
    exact hexec
  have hctx : fwdCtx ts (j + 1) =
      pushResult (fwdCtx ts j) j (asTask inner).name (Value.vctx ictx) :=
    fwdCtx_succ_ok ts j (asTask inner) (Value.vctx ictx) hj hv'
  refine ⟨hexec, ?_, execute_ok_final inner ictx hok, ?_⟩
  · rw [hctx]
    exact ctxGet_pushResult_name _ _ _ _
  · intro hj1
    have h1 : ts ≠ [] := by
      intro hx
      rw [hx] at hj1
      exact absurd hj1 (by simp)
    have hs' : ∀ i, i < j + 1 → isOk (execAt ts i) = true := by
      intro i hi
      rcases Nat.lt_or_ge i j with hlt | hge
      · exact hs i hlt
      · have : i = j := by omega
        subst this
        rw [hexec]
        rfl
    obtain ⟨tl1, htl1⟩ := fwdLoop_prefix ts (j + 1) hj1 hs'
    obtain ⟨tl2, htl2⟩ :=
      execute_trace_prefix ⟨nm, ts, TransactionState.NotStarted⟩ h1 rfl
    refine ⟨tl1 ++ tl2, ?_⟩
    rw [execNS, htl2, htl1]
    simp

/-- A one-task inner transaction for the C9 witness. -/
def tx9 : Transaction :=
  { name := "in", tasks := [okTask "p" (Value.vnat 5)],
    state := TransactionState.NotStarted }

/-- The C9 witness's outer task list: the inner transaction as task 0, then a
plain task. -/
def outer9 : List Task := [asTask tx9, okTask "z" (Value.vnat 9)]

/-- C9 witness: the inner run's entire result context (its `final` and `p`
entries included) is the value the outer context holds under `"in"`, and the
second outer task is invoked after it. -/
theorem c9_witness :
    execAt outer9 0 = Except.ok (Value.vctx
      [("final", Value.vnat 5), ("0", Value.vnat 5), ("p", Value.vnat 5)]) ∧
    ctxGet (fwdCtx outer9 (0 + 1)) tx9.name = some (Value.vctx
      [("final", Value.vnat 5), ("0", Value.vnat 5), ("p", Value.vnat 5)]) ∧
    (∃ fv, ctxGet [("final", Value.vnat 5), ("0", Value.vnat 5),
      ("p", Value.vnat 5)] "final" = some fv) ∧
    (0 + 1 < outer9.length → ∃ tl, (execNS "out" outer9).trace =
      (List.range (0 + 2)).map (eEv outer9) ++ tl) :=
  c9_nested_result_exposed "out" outer9 tx9 0
    [("final", Value.vnat 5), ("0", Value.vnat 5), ("p", Value.vnat 5)]
    rfl rfl (fun i hi => absurd hi (by omega))

/-- A two-task inner transaction for the C10 nested scenario. -/
def tx10 : Transaction :=
  { name := "in", tasks := [okTask "p" (Value.vnat 1), okTask "q" (Value.vnat 2)],
    state := TransactionState.NotStarted }

/-- The result context of `tx10`'s forward run. -/
def ictx10 : Ctx :=
  [("final", Value.vnat 2), ("0", Value.vnat 1), ("p", Value.vnat 1),
   ("1", Value.vnat 2), ("q", Value.vnat 2)]

/-- The outer context at the time an outer transaction holding `tx10` as its
first task fails at its second task: the inner results appear only nested
under `"in"` (and the index key `"0"`). -/
def octx10 : Ctx :=
  [("final", Value.vnull), ("0", Value.vctx ictx10), ("in", Value.vctx ictx10)]

/-- The C10 outer task list: the inner transaction, then a failing task. -/
def outer10 : List Task := [asTask tx10, failTask "f" (Err.raw (Value.vstr "boom"))]

/-- C10: directly invoked rollback of a finished transaction hands the
caller-supplied context verbatim to every task's rollback (the trace records
exactly that context at every index, in reverse order); a transaction's
Task-facing rollback is precisely the direct rollback of the instance its
forward run left behind; and in the concrete nested scenario the outer run
compensates the finished inner transaction with the outer failure-time
context, whose inner results sit only under the inner name — so the inner
tasks' rollbacks observe the outer context, where their own results are
nested, not top-level. -/
theorem c10_rollback_gets_caller_context (τ : Transaction) (c : Ctx) :
    (τ.state = TransactionState.Finished →
      (Transaction.rollback τ c).trace =
        (List.range τ.tasks.length).reverse.map (rEv τ.tasks c)) ∧
    ((asTask τ).rb c = (Transaction.rollback ((Transaction.execute τ).post) c).val) ∧
    (execNS "out" outer10).trace =
      [Event.execCall 0 "in" initCtx,
       Event.execCall 1 "f" octx10,
       Event.rbCall 0 "in" octx10] ∧
    (Transaction.rollback ((Transaction.execute tx10).post) octx10).trace =
      [Event.rbCall 1 "q" octx10, Event.rbCall 0 "p" octx10] ∧
    ctxGet octx10 "p" = none ∧
    ctxGet ictx10 "p" = some (Value.vnat 1) := by
  refine ⟨fun h => ?_, rfl, rfl, rfl, rfl, rfl⟩
  rw [rollback_finished τ c h, internalRollback_eq]

end Ptx
